import Mathlib

/-!
Verification of the NasVolumeWatcher catalog engine.

The development shallowly embeds the catalog operations of `database.py`
(the PostgreSQL-backed store), the hashing driver loop of `volumefind.py`
and the watch-event entity construction of `volumewatch.py`, and proves
or refutes the stated properties of the specification against them.

The persisted state is modelled as plain lists of rows:
a `files` table row is `FileRow`, a `dirs` table row is `DirRow`.
A freshly scanned entity staged into the `files_exist` temp table is a
`ScanEntry`.  Timestamps are integers (second resolution), sizes are
integers, nullable columns are `Option`.
-/

/-- A row of the `files` table: primary key (volume, path), metadata
columns, nullable `sha256` digest and nullable `rehash` flag. -/
structure FileRow where
  volume : String
  path : String
  parent : Option String
  size : Int
  ctime : Int
  mtime : Int
  atime : Int
  sha256 : Option String
  rehash : Option Bool
deriving DecidableEq, Repr

/-- A row of the `dirs` table: primary key (volume, path), metadata
columns and the nullable duplicate `count`. -/
structure DirRow where
  volume : String
  path : String
  parent : Option String
  size : Int
  ctime : Int
  mtime : Int
  atime : Int
  count : Option Int
deriving DecidableEq, Repr

/-- A scanned entity as staged into the `files_exist` temp table by
`upsert_files_replace`: key plus the freshly collected stat metadata. -/
structure ScanEntry where
  volume : String
  path : String
  parent : Option String
  size : Int
  ctime : Int
  mtime : Int
  atime : Int
deriving DecidableEq, Repr

/-- Primary key of a catalog row, the (volume, path) pair. -/
def FileRow.key (r : FileRow) : String × String := (r.volume, r.path)

/-- Primary key of a dirs row. -/
def DirRow.key (r : DirRow) : String × String := (r.volume, r.path)

/-- Key of a staged scanned entity. -/
def ScanEntry.key (e : ScanEntry) : String × String := (e.volume, e.path)

/-! ## Reconciler: `upsert_files_replace` (database.py lines 276-341)

The SQL pass stages `scanned` into `files_exist`, then runs
`insert into files ... on conflict (volume,path) do update set rehash=TRUE
where files.size!=excluded.size or files.mtime!=excluded.mtime`
(for `dirs` the conflict action is `do nothing`), and finally deletes
every row of the table whose (volume, path) key has no match in
`files_exist`.  An empty input returns immediately. -/

/-- The row inserted for a staged entity whose key is new: the listed
columns come from `files_exist`, `sha256` and `rehash` default to null. -/
def insert_row (e : ScanEntry) : FileRow :=
  { volume := e.volume, path := e.path, parent := e.parent, size := e.size,
    ctime := e.ctime, mtime := e.mtime, atime := e.atime,
    sha256 := none, rehash := none }

/-- The conflict action of the files upsert:
`update set rehash=TRUE where files.size!=excluded.size or
files.mtime!=excluded.mtime` — only the `rehash` column is written, and
only when size or mtime differ; otherwise the row is untouched. -/
def rehash_update (e : ScanEntry) (r : FileRow) : FileRow :=
  if r.size ≠ e.size ∨ r.mtime ≠ e.mtime then { r with rehash := some true } else r

/-- Effect of the bulk insert for one staged entity on the files table:
insert when the key is new, otherwise apply the conflict action. -/
def upsert_replace_one (catalog : List FileRow) (e : ScanEntry) : List FileRow :=
  if ∃ r ∈ catalog, r.key = e.key then
    catalog.map fun r => if r.key = e.key then rehash_update e r else r
  else
    catalog ++ [insert_row e]

/-- `upsert_files_replace` on the `files` table: no-op on empty input,
otherwise the bulk upsert of every staged entity followed by deletion of
every row whose key is absent from `files_exist` (the delete joins the
table against `files_exist` on (volume, path) only — no volume scoping). -/
def upsert_files_replace (catalog : List FileRow) (scanned : List ScanEntry) : List FileRow :=
  if scanned.isEmpty then catalog
  else
    let upserted := scanned.foldl upsert_replace_one catalog
    upserted.filter fun r => decide (∃ e ∈ scanned, e.key = r.key)

/-- The row inserted for a staged directory whose key is new. -/
def insert_dir (e : ScanEntry) : DirRow :=
  { volume := e.volume, path := e.path, parent := e.parent, size := e.size,
    ctime := e.ctime, mtime := e.mtime, atime := e.atime, count := none }

/-- Effect of the bulk insert for one staged entity on the dirs table:
the conflict action is `do nothing`. -/
def upsert_replace_one_dir (catalog : List DirRow) (e : ScanEntry) : List DirRow :=
  if ∃ r ∈ catalog, r.key = e.key then catalog
  else catalog ++ [insert_dir e]

/-- `upsert_files_replace` on the `dirs` table. -/
def upsert_dirs_replace (catalog : List DirRow) (scanned : List ScanEntry) : List DirRow :=
  if scanned.isEmpty then catalog
  else
    let upserted := scanned.foldl upsert_replace_one_dir catalog
    upserted.filter fun r => decide (∃ e ∈ scanned, e.key = r.key)

/-! ## Event upserts: `upsert_files` (lines 343-382), `delete_files`
(403-413), `rename_files` (428-438) -/

/-- One iteration of the `upsert_files` loop for a `File` entity:
`insert ... on conflict (volume,path) do update set parent=excluded.parent,
size=..., ctime=..., mtime=..., atime=..., sha256=%s, rehash=%s` —
on conflict every non-key column is overwritten with the incoming
entity's values. -/
def upsert_one (catalog : List FileRow) (f : FileRow) : List FileRow :=
  if ∃ r ∈ catalog, r.key = f.key then
    catalog.map fun r =>
      if r.key = f.key then
        { r with parent := f.parent, size := f.size, ctime := f.ctime,
                 mtime := f.mtime, atime := f.atime,
                 sha256 := f.sha256, rehash := f.rehash }
      else r
  else
    catalog ++ [f]

/-- `upsert_files` over a tuple of file entities (applied in order,
one transaction). -/
def upsert_files (catalog : List FileRow) (files : List FileRow) : List FileRow :=
  files.foldl upsert_one catalog

/-- `delete_files` for one entity: `delete from files where volume=%s and
path=%s`. -/
def delete_files (catalog : List FileRow) (volume path : String) : List FileRow :=
  catalog.filter fun r => decide (¬ r.key = (volume, path))

/-- `rename_files` for one src/dst pair: `update files set volume=%s,
path=%s, parent=%s where volume=%s and path=%s`.  A primary-key collision
raises and the transaction is rolled back, leaving the catalog unchanged;
this is modelled by the key-uniqueness guard on the updated table. -/
def rename_files (catalog : List FileRow) (src dst : FileRow) : List FileRow :=
  let updated := catalog.map fun r =>
    if r.key = src.key then
      { r with volume := dst.volume, path := dst.path, parent := dst.parent }
    else r
  if (updated.map FileRow.key).Nodup then updated else catalog

/-- The `File` entity built by `WatchEventHandler.on_created`
(volumewatch.py lines 30-51): path/parent from the event, stat from the
live filesystem, and the constructor defaults `sha256 = None`,
`rehash = None`. -/
def created_file (volume path : String) (parent : Option String)
    (size ctime mtime atime : Int) : FileRow :=
  { volume := volume, path := path, parent := parent, size := size,
    ctime := ctime, mtime := mtime, atime := atime,
    sha256 := none, rehash := none }

/-! ## Hash Lifecycle Manager: `select_files` (lines 384-401) and the
`modified` property (lines 252-254) -/

/-- Ordering used by `order by size asc`. -/
def sizeLE (a b : FileRow) : Prop := a.size ≤ b.size

instance : DecidableRel sizeLE := fun a b => inferInstanceAs (Decidable (a.size ≤ b.size))

instance : IsTotal FileRow sizeLE := ⟨fun a b => Int.le_total a.size b.size⟩

instance : IsTrans FileRow sizeLE := ⟨fun _ _ _ hab hbc => Int.le_trans hab hbc⟩

/-- Selection condition of `select_files(modified=True)`:
`sha256 is null or rehash = TRUE`. -/
def modified_cond (r : FileRow) : Prop := r.sha256 = none ∨ r.rehash = some true

instance : DecidablePred modified_cond := fun r =>
  inferInstanceAs (Decidable (r.sha256 = none ∨ r.rehash = some true))

/-- `select_files(modified=True, limit)`:
`select * from files where (sha256 is null or rehash = TRUE)
order by size asc limit {limit}` — the LIMIT clause is emitted only when
`limit > 0`. -/
def select_files_modified (catalog : List FileRow) (limit : Nat) : List FileRow :=
  let sorted := List.insertionSort sizeLE (catalog.filter fun r => decide (modified_cond r))
  if 0 < limit then sorted.take limit else sorted

/-- The `modified` property of `DatabasePostgreSQL`:
`select_files(modified=True, limit=100)`. -/
def modified (catalog : List FileRow) : List FileRow :=
  select_files_modified catalog 100

/-! ## Duplicate Accountant: `update_counter` (lines 440-464)

The CTE `hashlist` collects every sha256 value occurring on more than one
`files` row (`group by sha256 having count(sha256)>1`; the null group is
never selected since `count` ignores nulls, and there is no size filter
here).  `counts` left-joins `dirs` with its direct child files restricted
to `size>0` and counts those whose hash is in `hashlist`.  The update
writes `count` only where it differs from the stored value or the stored
value is null. -/

/-- Membership in the `hashlist` CTE: the digest occurs on at least two
files catalog-wide (files of any size, zero included). -/
def dup_hash (files : List FileRow) (h : String) : Prop :=
  2 ≤ (files.filter fun f => decide (f.sha256 = some h)).length

instance : ∀ files h, Decidable (dup_hash files h) := fun _ _ =>
  inferInstanceAs (Decidable (2 ≤ _))

/-- A child file contributing to `count(m)` for directory `d`: joined on
same volume, `parent` equal to the directory path, `size>0`, and digest
present in `hashlist`. -/
def counted_child (files : List FileRow) (d : DirRow) (f : FileRow) : Prop :=
  f.volume = d.volume ∧ f.parent = some d.path ∧ 0 < f.size ∧
    (match f.sha256 with
      | some h => dup_hash files h
      | none => False)

instance : ∀ files d f, Decidable (counted_child files d f) := fun files d f => by
  unfold counted_child
  exact match f.sha256 with
    | some _ => inferInstanceAs (Decidable (_ ∧ _ ∧ _ ∧ _))
    | none => inferInstanceAs (Decidable (_ ∧ _ ∧ _ ∧ False))

/-- The computed `counts.count` value for a directory. -/
def dir_dup_count (files : List FileRow) (d : DirRow) : Nat :=
  (files.filter fun f => decide (counted_child files d f)).length

/-- `update_counter`: write the computed count into every `dirs` row whose
stored count differs from it or is null. -/
def update_counter (dirs : List DirRow) (files : List FileRow) : List DirRow :=
  dirs.map fun d =>
    let c : Int := dir_dup_count files d
    if d.count ≠ some c ∨ d.count = none then { d with count := some c } else d

/-! ## Hashing driver: `FileFinder.calc_hash` (volumefind.py lines 93-127)

The loop repeatedly reads `database.modified`; for each returned row it
deletes the row if the file vanished from disk, otherwise refreshes the
stat metadata, stores the digest computed by `sha256sum` (null when the
read fails), sets `rehash` to null and upserts the row.  The filesystem is
abstracted by three functions keyed on the (volume, path) pair. -/

/-- Abstract live filesystem seen by the hashing loop: existence test,
stat metadata, and the `sha256sum` digest (`none` when the content could
not be read). -/
structure Filesystem where
  present : String × String → Bool
  sizeOf : String × String → Int
  ctimeOf : String × String → Int
  mtimeOf : String × String → Int
  atimeOf : String × String → Int
  digest : String × String → Option String

/-- The entity written back for a still-existing selected file: the key
and parent of the selected row, stat metadata refreshed from disk, the
digest computed by `sha256sum` (null on read failure), and `rehash`
assigned None before the upsert. -/
def refreshed_row (fs : Filesystem) (f : FileRow) : FileRow :=
  { volume := f.volume, path := f.path, parent := f.parent,
    size := fs.sizeOf f.key, ctime := fs.ctimeOf f.key,
    mtime := fs.mtimeOf f.key, atime := fs.atimeOf f.key,
    sha256 := fs.digest f.key, rehash := none }

/-- Processing of one selected row inside the `calc_hash` loop body. -/
def process_file (fs : Filesystem) (catalog : List FileRow) (f : FileRow) : List FileRow :=
  if fs.present f.key then
    upsert_files catalog [refreshed_row fs f]
  else
    delete_files catalog f.volume f.path

/-- Processing of one selected batch, threading the catalog through the
per-row writes (buffered upserts flush in order, deletions are issued
immediately; both orders yield the same final state since batch keys are
processed row by row). -/
def process_batch (fs : Filesystem) (catalog : List FileRow) : List FileRow → List FileRow
  | [] => catalog
  | f :: rest => process_batch fs (process_file fs catalog f) rest

/-- One iteration of the `while True` loop of `calc_hash`: select the
`modified` batch and process it. -/
def hash_step (fs : Filesystem) (catalog : List FileRow) : List FileRow :=
  process_batch fs catalog (modified catalog)

/-- `n` iterations of the `calc_hash` loop. -/
def hash_loop (fs : Filesystem) : Nat → List FileRow → List FileRow
  | 0, catalog => catalog
  | n + 1, catalog => hash_loop fs n (hash_step fs catalog)

/-! ## Helper lemmas: functional characterization of the reconcile pass -/

/-- The per-row effect of a whole reconcile pass on a pre-existing row:
the first staged entity with the row's key (unique when the scanned keys
are distinct) applies the conflict action, otherwise the row is kept. -/
def apply_scan (scanned : List ScanEntry) (r : FileRow) : FileRow :=
  match scanned.find? (fun e => decide (e.key = r.key)) with
  | some e => rehash_update e r
  | none => r

theorem rehash_update_key (e : ScanEntry) (r : FileRow) :
    (rehash_update e r).key = r.key := by
  unfold rehash_update
  split <;> rfl

theorem rehash_update_sha256 (e : ScanEntry) (r : FileRow) :
    (rehash_update e r).sha256 = r.sha256 := by
  unfold rehash_update
  split <;> rfl

theorem rehash_update_size (e : ScanEntry) (r : FileRow) :
    (rehash_update e r).size = r.size := by
  unfold rehash_update
  split <;> rfl

theorem rehash_update_mtime (e : ScanEntry) (r : FileRow) :
    (rehash_update e r).mtime = r.mtime := by
  unfold rehash_update
  split <;> rfl

theorem apply_scan_nil (r : FileRow) : apply_scan [] r = r := rfl

theorem apply_scan_key (s : List ScanEntry) (r : FileRow) :
    (apply_scan s r).key = r.key := by
  unfold apply_scan
  cases h : s.find? (fun e => decide (e.key = r.key)) with
  | none => rfl
  | some e => exact rehash_update_key e r

theorem apply_scan_cons_of_ne {e : ScanEntry} {r : FileRow} (s : List ScanEntry)
    (h : e.key ≠ r.key) : apply_scan (e :: s) r = apply_scan s r := by
  unfold apply_scan
  rw [List.find?_cons_of_neg]
  simp [h]

theorem apply_scan_cons_of_eq {e : ScanEntry} {r : FileRow} (s : List ScanEntry)
    (h : e.key = r.key) : apply_scan (e :: s) r = rehash_update e r := by
  unfold apply_scan
  rw [List.find?_cons_of_pos]
  simp [h]

theorem apply_scan_of_not_mem {s : List ScanEntry} {r : FileRow}
    (h : r.key ∉ s.map ScanEntry.key) : apply_scan s r = r := by
  unfold apply_scan
  rw [List.find?_eq_none.mpr]
  intro e he
  simp only [decide_eq_true_eq]
  intro hk
  exact h (hk ▸ List.mem_map_of_mem ScanEntry.key he)

theorem find?_key_of_nodup {s : List ScanEntry} {e : ScanEntry} {k : String × String}
    (hS : (s.map ScanEntry.key).Nodup) (he : e ∈ s) (hk : e.key = k) :
    s.find? (fun x => decide (x.key = k)) = some e := by
  induction s with
  | nil => cases he
  | cons a s ih =>
    rcases List.mem_cons.mp he with rfl | hmem
    · exact List.find?_cons_of_pos s (by simp [hk])
    · have hnot : a.key ∉ s.map ScanEntry.key := (List.nodup_cons.mp hS).1
      have hne : a.key ≠ k := by
        intro hak
        exact hnot (by rw [hak, ← hk]; exact List.mem_map_of_mem ScanEntry.key hmem)
      rw [List.find?_cons_of_neg s (by simp [hne])]
      exact ih (List.nodup_cons.mp hS).2 hmem

theorem apply_scan_of_mem {s : List ScanEntry} {e : ScanEntry} {r : FileRow}
    (hS : (s.map ScanEntry.key).Nodup) (he : e ∈ s) (hk : e.key = r.key) :
    apply_scan s r = rehash_update e r := by
  unfold apply_scan
  rw [find?_key_of_nodup hS he hk]

theorem exists_key_map_of_key_preserving {g : FileRow → FileRow}
    (hg : ∀ r, (g r).key = r.key) (catalog : List FileRow) (k : String × String) :
    (∃ r ∈ catalog.map g, r.key = k) ↔ (∃ r ∈ catalog, r.key = k) := by
  constructor
  · rintro ⟨r, hr, hk⟩
    obtain ⟨x, hx, rfl⟩ := List.mem_map.mp hr
    exact ⟨x, hx, by rw [← hg x]; exact hk⟩
  · rintro ⟨r, hr, hk⟩
    exact ⟨g r, List.mem_map_of_mem g hr, by rw [hg r]; exact hk⟩

theorem foldl_upsert_replace_char (scanned : List ScanEntry) :
    ∀ catalog : List FileRow, (scanned.map ScanEntry.key).Nodup →
    scanned.foldl upsert_replace_one catalog =
      catalog.map (apply_scan scanned) ++
        (scanned.filter fun e => decide (¬ ∃ r ∈ catalog, r.key = e.key)).map insert_row := by
  induction scanned with
  | nil =>
    intro catalog _
    rw [List.foldl_nil, List.filter_nil, List.map_nil, List.append_nil,
        List.map_congr_left (fun r _ => apply_scan_nil r)]
    simp
  | cons e s ih =>
    intro catalog hS
    have hnotin : e.key ∉ s.map ScanEntry.key := (List.nodup_cons.mp hS).1
    have hS' : (s.map ScanEntry.key).Nodup := (List.nodup_cons.mp hS).2
    rw [List.foldl_cons]
    by_cases hex : ∃ r ∈ catalog, r.key = e.key
    · have hg : ∀ r : FileRow,
          ((fun r => if r.key = e.key then rehash_update e r else r) r).key = r.key := by
        intro r
        by_cases hk : r.key = e.key
        · simp only [if_pos hk, rehash_update_key]
        · simp only [if_neg hk]
      have h1 : upsert_replace_one catalog e =
          catalog.map (fun r => if r.key = e.key then rehash_update e r else r) := by
        unfold upsert_replace_one
        rw [if_pos hex]
      rw [h1, ih _ hS']
      congr 1
      · rw [List.map_map]
        apply List.map_congr_left
        intro r _
        show apply_scan s (if r.key = e.key then rehash_update e r else r) = apply_scan (e :: s) r
        by_cases hk : r.key = e.key
        · rw [if_pos hk, apply_scan_cons_of_eq s hk.symm]
          apply apply_scan_of_not_mem
          rw [rehash_update_key, hk]
          exact hnotin
        · rw [if_neg hk, apply_scan_cons_of_ne s (fun h => hk h.symm)]
      · have hfe : (decide (¬ ∃ r ∈ catalog, r.key = e.key)) = false := by
          simp [hex]
        rw [List.filter_cons, hfe]
        simp only [Bool.false_eq_true, if_neg (by simp : ¬ False)]
        congr 1
        apply List.filter_congr
        intro x _
        have := exists_key_map_of_key_preserving hg catalog x.key
        simp only [decide_eq_decide]
        constructor
        · intro hn hc
          exact hn (this.mpr hc)
        · intro hn hc
          exact hn (this.mp hc)
    · have h1 : upsert_replace_one catalog e = catalog ++ [insert_row e] := by
        unfold upsert_replace_one
        rw [if_neg hex]
      rw [h1, ih _ hS']
      have h2 : (catalog ++ [insert_row e]).map (apply_scan s) =
          catalog.map (apply_scan (e :: s)) ++ [insert_row e] := by
        rw [List.map_append]
        congr 1
        · apply List.map_congr_left
          intro r hr
          have hne : e.key ≠ r.key := fun h => hex ⟨r, hr, h.symm⟩
          rw [apply_scan_cons_of_ne s hne]
        · simp only [List.map_cons, List.map_nil]
          congr 1
          apply apply_scan_of_not_mem
          show (insert_row e).key ∉ s.map ScanEntry.key
          have : (insert_row e).key = e.key := rfl
          rw [this]
          exact hnotin
      have h3 : ((e :: s).filter fun x => decide (¬ ∃ r ∈ catalog, r.key = x.key)) =
          e :: (s.filter fun x => decide (¬ ∃ r ∈ catalog, r.key = x.key)) := by
        rw [List.filter_cons, if_pos (by simp [hex])]
      have h4 : (s.filter fun x => decide (¬ ∃ r ∈ catalog ++ [insert_row e], r.key = x.key)) =
          (s.filter fun x => decide (¬ ∃ r ∈ catalog, r.key = x.key)) := by
        apply List.filter_congr
        intro x hx
        have hxe : x.key ≠ e.key := by
          intro h
          exact hnotin (h ▸ List.mem_map_of_mem ScanEntry.key hx)
        simp only [decide_eq_decide, List.mem_append, List.mem_singleton]
        constructor
        · intro hn hc
          exact hn (by obtain ⟨r, hr, hk⟩ := hc; exact ⟨r, Or.inl hr, hk⟩)
        · intro hn hc
          obtain ⟨r, hr | hr, hk⟩ := hc
          · exact hn ⟨r, hr, hk⟩
          · subst hr
            exact hxe hk.symm
      rw [h2, h3, h4, List.map_cons, List.append_assoc, List.singleton_append]

theorem upsert_files_replace_char (catalog : List FileRow) (scanned : List ScanEntry)
    (hS : (scanned.map ScanEntry.key).Nodup) (hne : scanned ≠ []) :
    upsert_files_replace catalog scanned =
      (catalog.filter fun r => decide (∃ e ∈ scanned, e.key = r.key)).map (apply_scan scanned)
      ++ (scanned.filter fun e => decide (¬ ∃ r ∈ catalog, r.key = e.key)).map insert_row := by
  unfold upsert_files_replace
  rw [if_neg (fun h => hne (List.isEmpty_iff.mp h))]
  rw [foldl_upsert_replace_char scanned catalog hS, List.filter_append]
  congr 1
  · rw [List.filter_map]
    congr 1
    apply List.filter_congr
    intro r _
    show decide (∃ e ∈ scanned, e.key = (apply_scan scanned r).key)
        = decide (∃ e ∈ scanned, e.key = r.key)
    rw [apply_scan_key]
  · apply List.filter_eq_self.mpr
    intro a ha
    obtain ⟨e, he, rfl⟩ := List.mem_map.mp ha
    have he' : e ∈ scanned := List.mem_of_mem_filter he
    simp only [decide_eq_true_eq]
    exact ⟨e, he', rfl⟩

/-- Key survival through the bulk upsert pass: no fold step removes a key. -/
theorem foldl_upsert_replace_key_survives (scanned : List ScanEntry) :
    ∀ (catalog : List FileRow) (r : FileRow), r ∈ catalog →
      ∃ r2 ∈ scanned.foldl upsert_replace_one catalog, r2.key = r.key := by
  induction scanned with
  | nil => exact fun catalog r hr => ⟨r, hr, rfl⟩
  | cons e s ih =>
    intro catalog r hr
    rw [List.foldl_cons]
    unfold upsert_replace_one
    by_cases hex : ∃ x ∈ catalog, x.key = e.key
    · rw [if_pos hex]
      have hmem : (if r.key = e.key then rehash_update e r else r) ∈
          catalog.map fun x => if x.key = e.key then rehash_update e x else x :=
        List.mem_map_of_mem _ hr
      obtain ⟨r2, hr2, hk⟩ := ih _ _ hmem
      refine ⟨r2, hr2, ?_⟩
      rw [hk]
      by_cases hk2 : r.key = e.key
      · rw [if_pos hk2, rehash_update_key]
      · rw [if_neg hk2]
    · rw [if_neg hex]
      exact ih _ r (List.mem_append_left _ hr)

/-! ## Claim C1 -/

/-- Catalog row in a volume that will be scanned. -/
def cexRowA : FileRow :=
  { volume := "v1", path := "a", parent := some "", size := 1, ctime := 0,
    mtime := 0, atime := 0, sha256 := none, rehash := none }

/-- Catalog row in a volume absent from the scan. -/
def cexRowB : FileRow :=
  { volume := "v2", path := "b", parent := some "", size := 2, ctime := 0,
    mtime := 0, atime := 0, sha256 := some "h2", rehash := some false }

/-- The staged scan, covering only volume v1. -/
def cexScanA : ScanEntry :=
  { volume := "v1", path := "a", parent := some "", size := 1, ctime := 0,
    mtime := 0, atime := 0 }

/-- C1 is false on the code: with a catalog holding a row in volume v2 and
a scan staging only volume v1, the v2 row — whose volume appears nowhere
in the scanned set — is deleted by the reconcile instead of being left
untouched. -/
theorem reconcile_unscanned_volume_deleted_cex :
    (∀ e ∈ [cexScanA], e.volume ≠ cexRowB.volume) ∧
    cexRowB ∈ [cexRowA, cexRowB] ∧
    cexRowB ∉ upsert_files_replace [cexRowA, cexRowB] [cexScanA] := by
  decide

/-- C1 (amended): the deletion phase of a nonempty reconcile is
catalog-wide, not scoped to the scanned volumes: a row survives only if
its (volume, path) key is in the staged set, and every catalog row whose
key is staged still has a row with its key afterwards. -/
theorem reconcile_delete_scope (catalog : List FileRow) (scanned : List ScanEntry)
    (hne : scanned ≠ []) :
    (∀ r ∈ upsert_files_replace catalog scanned, ∃ e ∈ scanned, e.key = r.key) ∧
    (∀ r ∈ catalog, (∃ e ∈ scanned, e.key = r.key) →
      ∃ r2 ∈ upsert_files_replace catalog scanned, r2.key = r.key) := by
  unfold upsert_files_replace
  rw [if_neg (fun h => hne (List.isEmpty_iff.mp h))]
  constructor
  · intro r hr
    have := (List.mem_filter.mp hr).2
    simpa using this
  · intro r hr hkey
    obtain ⟨r2, hr2, hk⟩ := foldl_upsert_replace_key_survives scanned catalog r hr
    refine ⟨r2, List.mem_filter.mpr ⟨hr2, ?_⟩, hk⟩
    simp only [decide_eq_true_eq]
    obtain ⟨e, he, hek⟩ := hkey
    exact ⟨e, he, by rw [hek, hk]⟩

/-- Witness for the amended C1 at a concrete catalog and scan. -/
theorem reconcile_delete_scope_witness :
    (∀ r ∈ upsert_files_replace [cexRowA, cexRowB] [cexScanA],
        ∃ e ∈ [cexScanA], e.key = r.key) ∧
    (∀ r ∈ [cexRowA, cexRowB], (∃ e ∈ [cexScanA], e.key = r.key) →
      ∃ r2 ∈ upsert_files_replace [cexRowA, cexRowB] [cexScanA], r2.key = r.key) :=
  reconcile_delete_scope [cexRowA, cexRowB] [cexScanA] (by decide)

/-! ## Claim C2 -/

/-- Existing catalog row whose scanned metadata changed. -/
def cexRowC : FileRow :=
  { volume := "v1", path := "c", parent := some "p", size := 10, ctime := 0,
    mtime := 5, atime := 0, sha256 := some "h1", rehash := some false }

/-- The rescan of that key with a new size and mtime. -/
def cexScanC : ScanEntry :=
  { volume := "v1", path := "c", parent := some "p", size := 20, ctime := 0,
    mtime := 7, atime := 0 }

/-- C2 is false on the code: for an existing key the conflict action only
sets `rehash`; the stored size (10) is not updated to the scanned size
(20), so no catalog row with the scanned size exists after the
reconcile. -/
theorem reconcile_no_metadata_refresh_cex :
    upsert_files_replace [cexRowC] [cexScanC] = [{ cexRowC with rehash := some true }] ∧
    (∀ r ∈ upsert_files_replace [cexRowC] [cexScanC],
        r.size ≠ cexScanC.size ∧ r.mtime ≠ cexScanC.mtime) := by
  decide

/-- C2 (amended): after a nonempty reconcile with distinct staged keys,
every staged entity has a row with its key: a new key is inserted with the
scanned metadata and null sha256/rehash, while an existing key keeps its
previously stored metadata columns unchanged (only `rehash` may be set by
the conflict action); and every surviving row's key is staged — prior rows
with unstaged keys are gone catalog-wide. -/
theorem reconcile_coverage (catalog : List FileRow) (scanned : List ScanEntry)
    (hS : (scanned.map ScanEntry.key).Nodup) (hne : scanned ≠ []) :
    (∀ e ∈ scanned, (¬ ∃ r ∈ catalog, r.key = e.key) →
        insert_row e ∈ upsert_files_replace catalog scanned) ∧
    (∀ e ∈ scanned, ∀ r ∈ catalog, r.key = e.key →
        rehash_update e r ∈ upsert_files_replace catalog scanned) ∧
    (∀ r ∈ upsert_files_replace catalog scanned, ∃ e ∈ scanned, e.key = r.key) := by
  rw [upsert_files_replace_char catalog scanned hS hne]
  refine ⟨?_, ?_, ?_⟩
  · intro e he hnew
    apply List.mem_append_right
    apply List.mem_map_of_mem
    exact List.mem_filter.mpr ⟨he, by simpa using hnew⟩
  · intro e he r hr hk
    apply List.mem_append_left
    rw [← apply_scan_of_mem hS he hk.symm]
    apply List.mem_map_of_mem
    exact List.mem_filter.mpr ⟨hr, by simp only [decide_eq_true_eq]; exact ⟨e, he, hk.symm⟩⟩
  · intro r hr
    rcases List.mem_append.mp hr with hl | hrt
    · obtain ⟨x, hx, rfl⟩ := List.mem_map.mp hl
      have hq := (List.mem_filter.mp hx).2
      simp only [decide_eq_true_eq] at hq
      obtain ⟨e, he, hek⟩ := hq
      exact ⟨e, he, by rw [apply_scan_key]; exact hek⟩
    · obtain ⟨e, he, rfl⟩ := List.mem_map.mp hrt
      exact ⟨e, List.mem_of_mem_filter he, rfl⟩

/-- Witness for the amended C2 at a concrete catalog and scan. -/
theorem reconcile_coverage_witness :
    (∀ e ∈ [cexScanC], (¬ ∃ r ∈ [cexRowC], r.key = e.key) →
        insert_row e ∈ upsert_files_replace [cexRowC] [cexScanC]) ∧
    (∀ e ∈ [cexScanC], ∀ r ∈ [cexRowC], r.key = e.key →
        rehash_update e r ∈ upsert_files_replace [cexRowC] [cexScanC]) ∧
    (∀ r ∈ upsert_files_replace [cexRowC] [cexScanC], ∃ e ∈ [cexScanC], e.key = r.key) :=
  reconcile_coverage [cexRowC] [cexScanC] (by decide) (by decide)

/-! ## Claim C6 -/

/-- Every row produced by the dirs bulk upsert is either an untouched
original row or a fresh insert: the conflict action for dirs is
`do nothing`. -/
theorem foldl_upsert_dir_mem (scanned : List ScanEntry) :
    ∀ (catalog : List DirRow) (d : DirRow),
      d ∈ scanned.foldl upsert_replace_one_dir catalog →
      d ∈ catalog ∨ ∃ e ∈ scanned, d = insert_dir e := by
  induction scanned with
  | nil => exact fun catalog d hd => Or.inl hd
  | cons e s ih =>
    intro catalog d hd
    rw [List.foldl_cons] at hd
    rcases ih _ d hd with hmem | ⟨e2, he2, rfl⟩
    · unfold upsert_replace_one_dir at hmem
      split at hmem
      · exact Or.inl hmem
      · rcases List.mem_append.mp hmem with h | h
        · exact Or.inl h
        · exact Or.inr ⟨e, List.mem_cons_self e s, List.mem_singleton.mp h⟩
    · exact Or.inr ⟨e2, List.mem_cons_of_mem e he2, rfl⟩

/-- C6: rehash correctness across reconciles.  For a file key present in
both the catalog and the scanned set, the reconcile keeps a row for it
whose value is `rehash_update e r`: when the scanned size or mtime differ
the row is the old row with `rehash` set to true and `sha256` (and all
metadata) unchanged; when both are unchanged the row is exactly the old
row, so `rehash` keeps its prior value.  Directory rows are never modified
by a reconcile: each surviving dirs row is an untouched original or a
fresh insert carrying no hash state. -/
theorem reconcile_rehash_correct (catalog : List FileRow) (scanned : List ScanEntry)
    (hS : (scanned.map ScanEntry.key).Nodup)
    (r : FileRow) (e : ScanEntry) (hr : r ∈ catalog) (he : e ∈ scanned)
    (hk : e.key = r.key) :
    (rehash_update e r ∈ upsert_files_replace catalog scanned) ∧
    ((e.size ≠ r.size ∨ e.mtime ≠ r.mtime) →
        rehash_update e r = { r with rehash := some true }) ∧
    ((e.size = r.size ∧ e.mtime = r.mtime) → rehash_update e r = r) ∧
    (rehash_update e r).sha256 = r.sha256 ∧
    (∀ (dcat : List DirRow) (dscan : List ScanEntry) (d : DirRow),
        d ∈ upsert_dirs_replace dcat dscan →
        d ∈ dcat ∨ ∃ e2 ∈ dscan, d = insert_dir e2) := by
  refine ⟨?_, ?_, ?_, rehash_update_sha256 e r, ?_⟩
  · have hne : scanned ≠ [] := List.ne_nil_of_mem he
    rw [upsert_files_replace_char catalog scanned hS hne]
    apply List.mem_append_left
    rw [← apply_scan_of_mem hS he hk]
    apply List.mem_map_of_mem
    exact List.mem_filter.mpr ⟨hr, by simp only [decide_eq_true_eq]; exact ⟨e, he, hk⟩⟩
  · intro hdiff
    unfold rehash_update
    rw [if_pos]
    rcases hdiff with h | h
    · exact Or.inl (fun h2 => h h2.symm)
    · exact Or.inr (fun h2 => h h2.symm)
  · intro heq
    unfold rehash_update
    rw [if_neg]
    push_neg
    exact ⟨heq.1.symm, heq.2.symm⟩
  · intro dcat dscan d hd
    unfold upsert_dirs_replace at hd
    split at hd
    · exact Or.inl hd
    · exact foldl_upsert_dir_mem dscan dcat d (List.mem_of_mem_filter hd)

/-- Witness for C6 at a concrete catalog and scan. -/
theorem reconcile_rehash_correct_witness :
    (rehash_update cexScanC cexRowC ∈ upsert_files_replace [cexRowC] [cexScanC]) ∧
    ((cexScanC.size ≠ cexRowC.size ∨ cexScanC.mtime ≠ cexRowC.mtime) →
        rehash_update cexScanC cexRowC = { cexRowC with rehash := some true }) ∧
    ((cexScanC.size = cexRowC.size ∧ cexScanC.mtime = cexRowC.mtime) →
        rehash_update cexScanC cexRowC = cexRowC) ∧
    (rehash_update cexScanC cexRowC).sha256 = cexRowC.sha256 ∧
    (∀ (dcat : List DirRow) (dscan : List ScanEntry) (d : DirRow),
        d ∈ upsert_dirs_replace dcat dscan →
        d ∈ dcat ∨ ∃ e2 ∈ dscan, d = insert_dir e2) :=
  reconcile_rehash_correct [cexRowC] [cexScanC] (by decide) cexRowC cexScanC
    (by decide) (by decide) (by decide)

/-! ## Claim C8 -/

/-- The conflict action is idempotent: once `rehash` has been set by a
size/mtime mismatch, applying the same staged entity again rewrites the
same value. -/
theorem rehash_update_idem (e : ScanEntry) (r : FileRow) :
    rehash_update e (rehash_update e r) = rehash_update e r := by
  by_cases h : r.size ≠ e.size ∨ r.mtime ≠ e.mtime
  · cases r
    simp [rehash_update, h]
  · cases r
    simp [rehash_update, h]

/-- A freshly inserted row matches its staged entity's size and mtime, so
the conflict action leaves it unchanged. -/
theorem rehash_update_insert_row (e : ScanEntry) :
    rehash_update e (insert_row e) = insert_row e := by
  simp [rehash_update, insert_row]

/-- Every surviving row of a nonempty reconcile has a staged key. -/
theorem mem_reconcile_key {catalog : List FileRow} {scanned : List ScanEntry}
    (hne : scanned ≠ []) {x : FileRow} (hx : x ∈ upsert_files_replace catalog scanned) :
    ∃ e ∈ scanned, e.key = x.key := by
  unfold upsert_files_replace at hx
  rw [if_neg (fun h => hne (List.isEmpty_iff.mp h))] at hx
  simpa using (List.mem_filter.mp hx).2

/-- Every staged key has a surviving row after a nonempty reconcile. -/
theorem reconcile_key_present {catalog : List FileRow} {scanned : List ScanEntry}
    (hS : (scanned.map ScanEntry.key).Nodup) (hne : scanned ≠ [])
    {e : ScanEntry} (he : e ∈ scanned) :
    ∃ x ∈ upsert_files_replace catalog scanned, x.key = e.key := by
  rw [upsert_files_replace_char catalog scanned hS hne]
  by_cases hex : ∃ r ∈ catalog, r.key = e.key
  · obtain ⟨r, hr, hrk⟩ := hex
    refine ⟨apply_scan scanned r, ?_, by rw [apply_scan_key, hrk]⟩
    apply List.mem_append_left
    apply List.mem_map_of_mem
    exact List.mem_filter.mpr ⟨hr, by simp only [decide_eq_true_eq]; exact ⟨e, he, hrk.symm⟩⟩
  · refine ⟨insert_row e, ?_, rfl⟩
    apply List.mem_append_right
    apply List.mem_map_of_mem
    exact List.mem_filter.mpr ⟨he, by simpa using hex⟩

/-- After a nonempty reconcile every surviving row is a fixed point of the
per-row reconcile action: rows whose metadata differed already carry
`rehash = true`, fresh inserts match their staged entity. -/
theorem reconcile_fixed_rows {catalog : List FileRow} {scanned : List ScanEntry}
    (hS : (scanned.map ScanEntry.key).Nodup) (hne : scanned ≠ [])
    {x : FileRow} (hx : x ∈ upsert_files_replace catalog scanned) :
    apply_scan scanned x = x := by
  rw [upsert_files_replace_char catalog scanned hS hne] at hx
  rcases List.mem_append.mp hx with hl | hr
  · obtain ⟨r, hrf, rfl⟩ := List.mem_map.mp hl
    have hq := (List.mem_filter.mp hrf).2
    simp only [decide_eq_true_eq] at hq
    obtain ⟨e, he, hek⟩ := hq
    rw [apply_scan_of_mem hS he hek]
    have hek2 : e.key = (rehash_update e r).key := by rw [rehash_update_key]; exact hek
    rw [apply_scan_of_mem hS he hek2]
    exact rehash_update_idem e r
  · obtain ⟨e, he, rfl⟩ := List.mem_map.mp hr
    have he2 : e ∈ scanned := List.mem_of_mem_filter he
    rw [apply_scan_of_mem hS he2 (show e.key = (insert_row e).key from rfl)]
    exact rehash_update_insert_row e

/-- C8: Reconcile is idempotent — applying the same scanned set twice in
succession leaves the catalog exactly as after the first application. -/
theorem reconcile_idempotent (catalog : List FileRow) (scanned : List ScanEntry)
    (hS : (scanned.map ScanEntry.key).Nodup) :
    upsert_files_replace (upsert_files_replace catalog scanned) scanned =
      upsert_files_replace catalog scanned := by
  by_cases hne : scanned = []
  · subst hne
    simp [upsert_files_replace]
  · rw [upsert_files_replace_char (upsert_files_replace catalog scanned) scanned hS hne]
    have h1 : (scanned.filter fun e =>
        decide (¬ ∃ r ∈ upsert_files_replace catalog scanned, r.key = e.key)) = [] := by
      apply List.filter_eq_nil_iff.mpr
      intro e he
      simp only [decide_eq_true_eq, Decidable.not_not]
      obtain ⟨x, hx, hk⟩ := @reconcile_key_present catalog scanned hS hne e he
      exact ⟨x, hx, hk⟩
    have h2 : ((upsert_files_replace catalog scanned).filter fun r =>
        decide (∃ e ∈ scanned, e.key = r.key)) = upsert_files_replace catalog scanned := by
      apply List.filter_eq_self.mpr
      intro x hx
      simp only [decide_eq_true_eq]
      exact mem_reconcile_key hne hx
    rw [h1, h2, List.map_nil, List.append_nil]
    exact (List.map_congr_left fun x hx => reconcile_fixed_rows hS hne hx).trans
      (List.map_id _)

/-- Witness for C8 at a concrete catalog and scan. -/
theorem reconcile_idempotent_witness :
    upsert_files_replace (upsert_files_replace [cexRowA, cexRowB] [cexScanA]) [cexScanA] =
      upsert_files_replace [cexRowA, cexRowB] [cexScanA] :=
  reconcile_idempotent [cexRowA, cexRowB] [cexScanA] (by decide)

/-! ## Claim C10 -/

/-- C10: `SelectModified(limit)` (with a positive limit, as in the
`modified` property which passes 100) returns only files whose sha256 is
null or whose rehash flag is true, sorted ascending by size, capped at
`limit` entries; and when at most `limit` files qualify, every qualifying
file of the catalog is returned. -/
theorem select_modified_spec (catalog : List FileRow) (limit : Nat) (hl : 0 < limit) :
    (∀ f ∈ select_files_modified catalog limit, modified_cond f) ∧
    List.Sorted sizeLE (select_files_modified catalog limit) ∧
    (select_files_modified catalog limit).length ≤ limit ∧
    ((catalog.filter fun r => decide (modified_cond r)).length ≤ limit →
      ∀ f ∈ catalog, modified_cond f → f ∈ select_files_modified catalog limit) := by
  unfold select_files_modified
  rw [if_pos hl]
  refine ⟨?_, ?_, List.length_take_le limit _, ?_⟩
  · intro f hf
    have h1 : f ∈ List.insertionSort sizeLE
        (catalog.filter fun r => decide (modified_cond r)) :=
      List.take_subset limit _ hf
    have h2 := (List.mem_insertionSort sizeLE).mp h1
    have := (List.mem_filter.mp h2).2
    simpa using this
  · exact List.Pairwise.sublist (List.take_sublist limit _)
      (List.sorted_insertionSort sizeLE _)
  · intro hlen f hf hcond
    have hlen2 : (List.insertionSort sizeLE
        (catalog.filter fun r => decide (modified_cond r))).length ≤ limit := by
      rw [List.length_insertionSort]
      exact hlen
    rw [List.take_of_length_le hlen2]
    exact (List.mem_insertionSort sizeLE).mpr
      (List.mem_filter.mpr ⟨hf, by simpa using hcond⟩)

/-- Witness for C10 at a concrete catalog with the driver's limit 100. -/
theorem select_modified_spec_witness :
    (∀ f ∈ select_files_modified [cexRowC, cexRowA] 100, modified_cond f) ∧
    List.Sorted sizeLE (select_files_modified [cexRowC, cexRowA] 100) ∧
    (select_files_modified [cexRowC, cexRowA] 100).length ≤ 100 ∧
    (([cexRowC, cexRowA].filter fun r => decide (modified_cond r)).length ≤ 100 →
      ∀ f ∈ [cexRowC, cexRowA], modified_cond f →
        f ∈ select_files_modified [cexRowC, cexRowA] 100) :=
  select_modified_spec [cexRowC, cexRowA] 100 (by decide)

/-! ## Claim C7 -/

/-- C7: applying a Create event for a key already present in the files
catalog overwrites the stored sha256 and rehash columns with the incoming
entity's values; since `on_created` builds the `File` with both null, the
row for that key ends with sha256 = null and rehash = null (the stored
hash is reset), while rows with other keys are untouched. -/
theorem create_event_resets_hash (catalog : List FileRow) (volume path : String)
    (parent : Option String) (size ctime mtime atime : Int)
    (hex : ∃ r ∈ catalog, r.key = (volume, path)) :
    (∀ x ∈ upsert_files catalog [created_file volume path parent size ctime mtime atime],
        x.key = (volume, path) → x.sha256 = none ∧ x.rehash = none) ∧
    (∃ x ∈ upsert_files catalog [created_file volume path parent size ctime mtime atime],
        x.key = (volume, path)) ∧
    (∀ x ∈ catalog, x.key ≠ (volume, path) →
        x ∈ upsert_files catalog [created_file volume path parent size ctime mtime atime]) := by
  have hone : upsert_files catalog [created_file volume path parent size ctime mtime atime]
      = upsert_one catalog (created_file volume path parent size ctime mtime atime) := rfl
  have hkey : (created_file volume path parent size ctime mtime atime).key
      = (volume, path) := rfl
  rw [hone]
  unfold upsert_one
  rw [if_pos (by rw [hkey]; exact hex)]
  refine ⟨?_, ?_, ?_⟩
  · intro x hx hxk
    obtain ⟨r, hr, rfl⟩ := List.mem_map.mp hx
    by_cases hk : r.key = (created_file volume path parent size ctime mtime atime).key
    · rw [if_pos hk]
      exact ⟨rfl, rfl⟩
    · rw [if_neg hk] at hxk ⊢
      exact absurd (hxk.trans hkey.symm) hk
  · obtain ⟨r, hr, hrk⟩ := hex
    refine ⟨_, List.mem_map_of_mem _ hr, ?_⟩
    rw [if_pos (by rw [hkey]; exact hrk)]
    exact hrk
  · intro x hx hxk
    refine List.mem_map.mpr ⟨x, hx, ?_⟩
    rw [if_neg (by rw [hkey]; exact hxk)]

/-- Witness for C7: a create notification for the already-hashed row
`cexRowC` resets its stored hash state. -/
theorem create_event_resets_hash_witness :
    (∀ x ∈ upsert_files [cexRowC] [created_file "v1" "c" (some "p") 10 0 5 0],
        x.key = ("v1", "c") → x.sha256 = none ∧ x.rehash = none) ∧
    (∃ x ∈ upsert_files [cexRowC] [created_file "v1" "c" (some "p") 10 0 5 0],
        x.key = ("v1", "c")) ∧
    (∀ x ∈ [cexRowC], x.key ≠ ("v1", "c") →
        x ∈ upsert_files [cexRowC] [created_file "v1" "c" (some "p") 10 0 5 0]) :=
  create_event_resets_hash [cexRowC] "v1" "c" (some "p") 10 0 5 0 (by decide)

/-! ## Claim C9 -/

/-- C9: a Move event rewrites only volume, path and parent of the moved
row to the destination values; sha256, rehash, size, ctime, mtime and
atime are preserved unchanged, and rows with other keys are untouched.
Hypotheses: the catalog has unique keys (its primary key) and the
destination key is free or equal to the source key (otherwise the update
raises a key violation and rolls back). -/
theorem move_preserves_content (catalog : List FileRow) (src dst r : FileRow)
    (hC : (catalog.map FileRow.key).Nodup) (hr : r ∈ catalog) (hkey : r.key = src.key)
    (hdst : dst.key ∉ catalog.map FileRow.key ∨ dst.key = src.key) :
    ({ r with volume := dst.volume, path := dst.path, parent := dst.parent }
        ∈ rename_files catalog src dst) ∧
    ({ r with volume := dst.volume, path := dst.path, parent := dst.parent }).sha256
        = r.sha256 ∧
    ({ r with volume := dst.volume, path := dst.path, parent := dst.parent }).rehash
        = r.rehash ∧
    ({ r with volume := dst.volume, path := dst.path, parent := dst.parent }).size
        = r.size ∧
    ({ r with volume := dst.volume, path := dst.path, parent := dst.parent }).ctime
        = r.ctime ∧
    ({ r with volume := dst.volume, path := dst.path, parent := dst.parent }).mtime
        = r.mtime ∧
    ({ r with volume := dst.volume, path := dst.path, parent := dst.parent }).atime
        = r.atime ∧
    (∀ x ∈ catalog, x.key ≠ src.key → x ∈ rename_files catalog src dst) := by
  have hfun : ∀ x : FileRow,
      ((if x.key = src.key then
          { x with volume := dst.volume, path := dst.path, parent := dst.parent }
        else x) : FileRow).key
      = (if x.key = src.key then dst.key else x.key) := by
    intro x
    by_cases hk : x.key = src.key
    · rw [if_pos hk, if_pos hk]
      rfl
    · rw [if_neg hk, if_neg hk]
  have hguard : ((catalog.map fun x =>
      if x.key = src.key then
        { x with volume := dst.volume, path := dst.path, parent := dst.parent }
      else x).map FileRow.key).Nodup := by
    rw [List.map_map]
    have heq : (catalog.map (FileRow.key ∘ fun x =>
        if x.key = src.key then
          { x with volume := dst.volume, path := dst.path, parent := dst.parent }
        else x))
        = (catalog.map FileRow.key).map fun k => if k = src.key then dst.key else k := by
      rw [List.map_map]
      exact List.map_congr_left fun x _ => hfun x
    rw [heq]
    rcases hdst with hfree | hsame
    · apply List.Nodup.map_on _ hC
      intro a ha b hb hab
      by_cases ha2 : a = src.key <;> by_cases hb2 : b = src.key
      · rw [ha2, hb2]
      · rw [if_pos ha2, if_neg hb2] at hab
        exact absurd (hab ▸ hb) hfree
      · rw [if_neg ha2, if_pos hb2] at hab
        exact absurd (hab ▸ ha) hfree
      · rwa [if_neg ha2, if_neg hb2] at hab
    · have hid : ((catalog.map FileRow.key).map fun k =>
          if k = src.key then dst.key else k) = catalog.map FileRow.key := by
        apply (List.map_congr_left fun k _ => ?_).trans (List.map_id _)
        show (if k = src.key then dst.key else k) = k
        by_cases hk : k = src.key
        · rw [if_pos hk, hsame, hk]
        · rw [if_neg hk]
      rw [hid]
      exact hC
  have hres : rename_files catalog src dst = catalog.map fun x =>
      if x.key = src.key then
        { x with volume := dst.volume, path := dst.path, parent := dst.parent }
      else x := by
    unfold rename_files
    rw [if_pos hguard]
  refine ⟨?_, rfl, rfl, rfl, rfl, rfl, rfl, ?_⟩
  · rw [hres]
    refine List.mem_map.mpr ⟨r, hr, ?_⟩
    rw [if_pos hkey]
  · intro x hx hxk
    rw [hres]
    refine List.mem_map.mpr ⟨x, hx, ?_⟩
    rw [if_neg hxk]

/-- Source key entity of the witness move (only volume/path are read). -/
def cexMoveSrc : FileRow :=
  { volume := "v1", path := "c", parent := none, size := 0, ctime := 0,
    mtime := 0, atime := 0, sha256 := none, rehash := none }

/-- Destination entity of the witness move (volume/path/parent are read). -/
def cexMoveDst : FileRow :=
  { volume := "v1", path := "c2", parent := some "p2", size := 0, ctime := 0,
    mtime := 0, atime := 0, sha256 := none, rehash := none }

/-- The row `cexRowC` as rewritten by the witness move. -/
def cexMovedRow : FileRow :=
  { cexRowC with volume := cexMoveDst.volume, path := cexMoveDst.path, parent := cexMoveDst.parent }

/-- Witness for C9: moving the hashed row `cexRowC` to a fresh key keeps
its hash state and metadata. -/
theorem move_preserves_content_witness :
    (cexMovedRow ∈ rename_files [cexRowC] cexMoveSrc cexMoveDst) ∧
    cexMovedRow.sha256 = cexRowC.sha256 ∧
    cexMovedRow.rehash = cexRowC.rehash ∧
    cexMovedRow.size = cexRowC.size ∧
    cexMovedRow.ctime = cexRowC.ctime ∧
    cexMovedRow.mtime = cexRowC.mtime ∧
    cexMovedRow.atime = cexRowC.atime ∧
    (∀ x ∈ [cexRowC], x.key ≠ cexMoveSrc.key →
        x ∈ rename_files [cexRowC] cexMoveSrc cexMoveDst) :=
  move_preserves_content [cexRowC] cexMoveSrc cexMoveDst cexRowC
    (by decide) (by decide) (by decide) (Or.inl (by decide))

/-! ## Claim C3 -/

/-- Duplicated-hash set as worded by the claim: a hash occurring on two or
more files catalog-wide, where zero-size files are excluded from
identifying the set. -/
def spec_dup_hash (files : List FileRow) (h : String) : Prop :=
  2 ≤ (files.filter fun f => decide (f.sha256 = some h ∧ 0 < f.size)).length

instance : ∀ files h, Decidable (spec_dup_hash files h) := fun _ _ =>
  inferInstanceAs (Decidable (2 ≤ _))

/-- Claim-worded counted child: a direct child file of the directory whose
contentHash is in the claim's duplicated-hash set. -/
def spec_counted_child (files : List FileRow) (d : DirRow) (f : FileRow) : Prop :=
  f.volume = d.volume ∧ f.parent = some d.path ∧
    (match f.sha256 with
      | some h => spec_dup_hash files h
      | none => False)

instance : ∀ files d f, Decidable (spec_counted_child files d f) := fun files d f => by
  unfold spec_counted_child
  exact match f.sha256 with
    | some _ => inferInstanceAs (Decidable (_ ∧ _ ∧ _))
    | none => inferInstanceAs (Decidable (_ ∧ _ ∧ False))

/-- The duplicate count as worded by the claim. -/
def spec_dir_dup_count (files : List FileRow) (d : DirRow) : Nat :=
  (files.filter fun f => decide (spec_counted_child files d f)).length

/-- Directory for the C3 counterexample. -/
def cexDirD : DirRow :=
  { volume := "v1", path := "d", parent := some "", size := 0, ctime := 0,
    mtime := 0, atime := 0, count := none }

/-- Nonzero-size child of the directory whose hash is shared only with a
zero-size file. -/
def cexFileX : FileRow :=
  { volume := "v1", path := "d/x", parent := some "d", size := 5, ctime := 0,
    mtime := 0, atime := 0, sha256 := some "h", rehash := none }

/-- Zero-size file elsewhere carrying the same hash. -/
def cexFileZ : FileRow :=
  { volume := "v1", path := "z", parent := some "", size := 0, ctime := 0,
    mtime := 0, atime := 0, sha256 := some "h", rehash := none }

/-- C3 is false on the code: the `hashlist` CTE has no size filter, so the
hash "h" shared by a nonzero-size child and a zero-size file counts as
duplicated and `update_counter` stores count 1, while the claim's formula
(zero-size files excluded from identifying the duplicated set) yields 0. -/
theorem update_counter_zero_size_cex :
    update_counter [cexDirD] [cexFileX, cexFileZ]
      = [{ cexDirD with count := some 1 }] ∧
    spec_dir_dup_count [cexFileX, cexFileZ] cexDirD = 0 := by
  decide

/-- C3 (amended): after `update_counter`, every directory's count equals
the number of its direct child files with size > 0 whose contentHash
occurs on at least two files catalog-wide — the zero-size exclusion
applies to the counted children, while zero-size files still participate
in identifying the duplicated-hash set. -/
theorem update_counter_invariant (dirs : List DirRow) (files : List FileRow) :
    update_counter dirs files
      = dirs.map fun d => { d with count := some (dir_dup_count files d) } := by
  unfold update_counter
  apply List.map_congr_left
  intro d _
  by_cases h : d.count = some ((dir_dup_count files d : Nat) : Int)
  · rw [if_neg]
    · cases d with
      | mk dv dp dpar dsz dct dmt dat dcnt =>
        exact congrArg (DirRow.mk dv dp dpar dsz dct dmt dat) h
    · push_neg
      exact ⟨h, by rw [h]; simp⟩
  · rw [if_pos (Or.inl h)]

/-! ## Claim C5 -/

/-- Filesystem in which every file exists but no content can be read:
`sha256sum` returns null for every path. -/
def cexFs : Filesystem :=
  { present := fun _ => true, sizeOf := fun _ => 10, ctimeOf := fun _ => 0,
    mtimeOf := fun _ => 5, atimeOf := fun _ => 0, digest := fun _ => none }

/-- Hashed catalog row with the rehash flag set, selected for rehashing. -/
def cexRowP : FileRow :=
  { volume := "v1", path := "p", parent := some "", size := 10, ctime := 0,
    mtime := 5, atime := 0, sha256 := some "hP", rehash := some true }

/-- C5 is false on the code: on digest failure for a file still present on
disk, `calc_hash` assigns `file.rehash = None` before upserting, so the
stored rehash flag does NOT keep its prior value (here `some true`): it is
overwritten with null along with the null digest. -/
theorem digest_failure_clears_rehash_cex :
    cexRowP.rehash = some true ∧
    process_file cexFs [cexRowP] cexRowP
      = [{ cexRowP with sha256 := none, rehash := none }] ∧
    (∀ r ∈ process_file cexFs [cexRowP] cexRowP, r.rehash ≠ cexRowP.rehash) := by
  decide

/-- C5 (amended): on digest failure for a selected file that still exists
on disk, the loop stores a null digest AND overwrites rehashPending with
null (it does not keep its prior value); the row stays eligible for
reselection because its contentHash is null, rows with other keys are
untouched, and the batch continues with the next entry rather than
aborting. -/
theorem digest_failure_stores_null (fs : Filesystem) (catalog : List FileRow)
    (f : FileRow) (hp : fs.present f.key = true) (hd : fs.digest f.key = none)
    (hf : ∃ r ∈ catalog, r.key = f.key) :
    (∀ x ∈ process_file fs catalog f, x.key = f.key →
        x.sha256 = none ∧ x.rehash = none ∧ modified_cond x) ∧
    (∃ x ∈ process_file fs catalog f, x.key = f.key) ∧
    (∀ x ∈ catalog, x.key ≠ f.key → x ∈ process_file fs catalog f) ∧
    (∀ rest, process_batch fs catalog (f :: rest)
        = process_batch fs (process_file fs catalog f) rest) := by
  have hnk : (refreshed_row fs f).key = f.key := rfl
  have hpf : process_file fs catalog f = upsert_one catalog (refreshed_row fs f) := by
    unfold process_file
    rw [if_pos hp]
    rfl
  refine ⟨?_, ?_, ?_, fun rest => rfl⟩
  · rw [hpf]
    unfold upsert_one
    rw [if_pos (by rw [hnk]; exact hf)]
    intro x hx hxk
    obtain ⟨r, hr, rfl⟩ := List.mem_map.mp hx
    by_cases hk : r.key = (refreshed_row fs f).key
    · rw [if_pos hk]
      exact ⟨hd, rfl, Or.inl hd⟩
    · rw [if_neg hk] at hxk ⊢
      exact absurd (hxk.trans hnk.symm) hk
  · rw [hpf]
    unfold upsert_one
    rw [if_pos (by rw [hnk]; exact hf)]
    obtain ⟨r, hr, hrk⟩ := hf
    refine ⟨_, List.mem_map_of_mem _ hr, ?_⟩
    rw [if_pos (by rw [hnk]; exact hrk)]
    exact hrk
  · rw [hpf]
    unfold upsert_one
    rw [if_pos (by rw [hnk]; exact hf)]
    intro x hx hxk
    refine List.mem_map.mpr ⟨x, hx, ?_⟩
    rw [if_neg (by rw [hnk]; exact hxk)]

/-- Witness for the amended C5 at the concrete unreadable filesystem. -/
theorem digest_failure_stores_null_witness :
    (∀ x ∈ process_file cexFs [cexRowP] cexRowP, x.key = cexRowP.key →
        x.sha256 = none ∧ x.rehash = none ∧ modified_cond x) ∧
    (∃ x ∈ process_file cexFs [cexRowP] cexRowP, x.key = cexRowP.key) ∧
    (∀ x ∈ [cexRowP], x.key ≠ cexRowP.key → x ∈ process_file cexFs [cexRowP] cexRowP) ∧
    (∀ rest, process_batch cexFs [cexRowP] (cexRowP :: rest)
        = process_batch cexFs (process_file cexFs [cexRowP] cexRowP) rest) :=
  digest_failure_stores_null cexFs [cexRowP] cexRowP rfl rfl ⟨cexRowP, by decide, rfl⟩

/-! ## Claim C4 -/

/-- File row that permanently fails to hash under `cexFs`: it exists on
disk, its stat matches the catalog, and every digest attempt fails. -/
def cexRowQ : FileRow :=
  { volume := "v1", path := "q", parent := some "", size := 10, ctime := 0,
    mtime := 5, atime := 0, sha256 := none, rehash := none }

/-- C4 is false on the code: with one catalog row whose file exists but is
permanently unreadable (`sha256sum` returns null every time), every
iteration of the `calc_hash` loop stores a null digest, the row keeps
satisfying the selection condition, and `modified` never returns an empty
sequence — the loop runs forever. -/
theorem hash_loop_nonterminating_cex :
    ¬ ∃ n, modified (hash_loop cexFs n [cexRowQ]) = [] := by
  have hstep : hash_step cexFs [cexRowQ] = [cexRowQ] := by decide
  have hloop : ∀ n, hash_loop cexFs n [cexRowQ] = [cexRowQ] := by
    intro n
    induction n with
    | zero => rfl
    | succ n ih =>
      show hash_loop cexFs n (hash_step cexFs [cexRowQ]) = [cexRowQ]
      rw [hstep]
      exact ih
  rintro ⟨n, hn⟩
  rw [hloop n] at hn
  exact absurd hn (by decide)

/-- Number of catalog rows still eligible for hashing — the termination
measure of the `calc_hash` loop. -/
def selectable_count (catalog : List FileRow) : Nat :=
  catalog.countP fun r => decide (modified_cond r)

theorem countP_lt_of_witness {α : Type} {p q : α → Bool} {l : List α}
    (hpq : ∀ a ∈ l, p a = true → q a = true) {x : α} (hx : x ∈ l)
    (hpx : p x = false) (hqx : q x = true) : l.countP p < l.countP q := by
  induction l with
  | nil => cases hx
  | cons a l ih =>
    rw [List.countP_cons, List.countP_cons]
    rcases List.mem_cons.mp hx with rfl | hmem
    · rw [hpx, hqx]
      have hle := List.countP_mono_left (fun b hb => hpq b (List.mem_cons_of_mem _ hb))
      simp only [Bool.false_eq_true, if_neg (by simp : ¬False), if_pos trivial]
      omega
    · have hlt := ih (fun b hb => hpq b (List.mem_cons_of_mem a hb)) hmem
      by_cases hpa : p a = true
      · rw [if_pos hpa, if_pos (hpq a (List.mem_cons_self a l) hpa)]
        omega
      · rw [if_neg hpa]
        split <;> omega

/-- Upserting a non-selectable entity never increases the measure. -/
theorem selectable_count_upsert_le (catalog : List FileRow) (x : FileRow)
    (hx : ¬ modified_cond x) :
    selectable_count (upsert_one catalog x) ≤ selectable_count catalog := by
  unfold selectable_count upsert_one
  split
  · rw [List.countP_map]
    apply List.countP_mono_left
    intro r _
    simp only [Function.comp_apply]
    by_cases hk : r.key = x.key
    · rw [if_pos hk]
      intro hcontr
      exact absurd (by simpa [modified_cond] using hcontr) hx
    · rw [if_neg hk]
      exact fun h => h
  · rw [List.countP_append]
    have : List.countP (fun r => decide (modified_cond r)) [x] = 0 := by
      simp [hx]
    omega

/-- Upserting a non-selectable entity over an existing selectable row with
the same key strictly decreases the measure. -/
theorem selectable_count_upsert_lt (catalog : List FileRow) (x : FileRow)
    (hx : ¬ modified_cond x) (r : FileRow) (hr : r ∈ catalog) (hk : r.key = x.key)
    (hsel : modified_cond r) :
    selectable_count (upsert_one catalog x) < selectable_count catalog := by
  unfold selectable_count upsert_one
  rw [if_pos ⟨r, hr, hk⟩, List.countP_map]
  refine countP_lt_of_witness ?_ hr ?_ ?_
  · intro a _
    simp only [Function.comp_apply]
    by_cases hak : a.key = x.key
    · rw [if_pos hak]
      intro hcontr
      exact absurd (by simpa [modified_cond] using hcontr) hx
    · rw [if_neg hak]
      exact fun h => h
  · simp only [Function.comp_apply, if_pos hk]
    simpa [modified_cond] using hx
  · simpa using hsel

/-- Processing one selected row never increases the measure, provided the
digest of every present file succeeds. -/
theorem selectable_count_process_file_le (fs : Filesystem)
    (hdig : ∀ k, fs.present k = true → (fs.digest k).isSome) (catalog : List FileRow)
    (f : FileRow) :
    selectable_count (process_file fs catalog f) ≤ selectable_count catalog := by
  unfold process_file
  by_cases hp : fs.present f.key
  · rw [if_pos hp]
    have hsingle : upsert_files catalog [refreshed_row fs f]
        = upsert_one catalog (refreshed_row fs f) := rfl
    rw [hsingle]
    apply selectable_count_upsert_le
    obtain ⟨h, hh⟩ := Option.isSome_iff_exists.mp (hdig f.key hp)
    intro hcontr
    rcases hcontr with hc | hc
    · rw [show (refreshed_row fs f).sha256 = fs.digest f.key from rfl, hh] at hc
      cases hc
    · cases hc
  · rw [if_neg hp]
    unfold selectable_count delete_files
    exact List.Sublist.countP_le _ (List.filter_sublist catalog)

/-- Processing a selected row whose catalog row is still selectable
strictly decreases the measure. -/
theorem selectable_count_process_file_lt (fs : Filesystem)
    (hdig : ∀ k, fs.present k = true → (fs.digest k).isSome) (catalog : List FileRow)
    (f : FileRow) (hf : f ∈ catalog) (hsel : modified_cond f) :
    selectable_count (process_file fs catalog f) < selectable_count catalog := by
  unfold process_file
  by_cases hp : fs.present f.key
  · rw [if_pos hp]
    have hsingle : upsert_files catalog [refreshed_row fs f]
        = upsert_one catalog (refreshed_row fs f) := rfl
    rw [hsingle]
    refine selectable_count_upsert_lt catalog (refreshed_row fs f) ?_ f hf rfl hsel
    obtain ⟨h, hh⟩ := Option.isSome_iff_exists.mp (hdig f.key hp)
    intro hcontr
    rcases hcontr with hc | hc
    · rw [show (refreshed_row fs f).sha256 = fs.digest f.key from rfl, hh] at hc
      cases hc
    · cases hc
  · rw [if_neg hp]
    unfold selectable_count delete_files
    rw [List.countP_filter]
    refine countP_lt_of_witness ?_ hf ?_ ?_
    · intro a _ h
      exact ((Bool.and_eq_true _ _).mp h).1
    · have : decide (¬ f.key = (f.volume, f.path)) = false := by
        simp [FileRow.key]
      rw [this, Bool.and_false]
    · simpa using hsel

/-- Processing a whole batch never increases the measure. -/
theorem selectable_count_process_batch_le (fs : Filesystem)
    (hdig : ∀ k, fs.present k = true → (fs.digest k).isSome) :
    ∀ (batch : List FileRow) (catalog : List FileRow),
      selectable_count (process_batch fs catalog batch) ≤ selectable_count catalog := by
  intro batch
  induction batch with
  | nil => exact fun catalog => le_rfl
  | cons f rest ih =>
    intro catalog
    exact le_trans (ih (process_file fs catalog f))
      (selectable_count_process_file_le fs hdig catalog f)

/-- A nonempty iteration of the hashing loop strictly decreases the
measure. -/
theorem selectable_count_hash_step_lt (fs : Filesystem)
    (hdig : ∀ k, fs.present k = true → (fs.digest k).isSome) (catalog : List FileRow)
    (hne : modified catalog ≠ []) :
    selectable_count (hash_step fs catalog) < selectable_count catalog := by
  rcases hbatch : modified catalog with _ | ⟨f, rest⟩
  · exact absurd hbatch hne
  · have hfmem : f ∈ modified catalog := by
      rw [hbatch]
      exact List.mem_cons_self f rest
    have hfsel : f ∈ catalog.filter fun r => decide (modified_cond r) := by
      unfold modified select_files_modified at hfmem
      rw [if_pos (by omega : 0 < 100)] at hfmem
      exact (List.mem_insertionSort sizeLE).mp (List.take_subset 100 _ hfmem)
    have hfc : f ∈ catalog := (List.mem_filter.mp hfsel).1
    have hfm : modified_cond f := by
      have := (List.mem_filter.mp hfsel).2
      simpa using this
    have hstep : hash_step fs catalog
        = process_batch fs (process_file fs catalog f) rest := by
      unfold hash_step
      rw [hbatch]
      rfl
    rw [hstep]
    exact lt_of_le_of_lt (selectable_count_process_batch_le fs hdig rest _)
      (selectable_count_process_file_lt fs hdig catalog f hfc hfm)

/-- An empty measure means nothing is selected. -/
theorem modified_eq_nil_of_count_zero (catalog : List FileRow)
    (h : selectable_count catalog = 0) : modified catalog = [] := by
  unfold selectable_count at h
  rw [List.countP_eq_length_filter, List.length_eq_zero] at h
  unfold modified select_files_modified
  rw [h]
  rfl

/-- C4 (amended): the hashing driver loop terminates whenever digest
computation succeeds for every file present on disk (no permanently
unreadable file): some number of iterations reaches a state where
`SelectModified` returns the empty sequence.  (With an unreadable file it
need not terminate — see the counterexample.) -/
theorem calc_hash_terminates (fs : Filesystem)
    (hdig : ∀ k, fs.present k = true → (fs.digest k).isSome) (catalog : List FileRow) :
    ∃ n, modified (hash_loop fs n catalog) = [] := by
  suffices h : ∀ (m : Nat) (c : List FileRow), selectable_count c ≤ m →
      ∃ n, modified (hash_loop fs n c) = [] from h (selectable_count catalog) catalog le_rfl
  intro m
  induction m with
  | zero =>
    intro c hle
    exact ⟨0, modified_eq_nil_of_count_zero c (Nat.le_zero.mp hle)⟩
  | succ m ih =>
    intro c hle
    by_cases hmod : modified c = []
    · exact ⟨0, hmod⟩
    · have hlt := selectable_count_hash_step_lt fs hdig c hmod
      obtain ⟨n, hn⟩ := ih (hash_step fs c) (by omega)
      exact ⟨n + 1, hn⟩

/-- Filesystem on which every file exists and every digest succeeds. -/
def cexFsOk : Filesystem :=
  { present := fun _ => true, sizeOf := fun _ => 10, ctimeOf := fun _ => 0,
    mtimeOf := fun _ => 5, atimeOf := fun _ => 0, digest := fun _ => some "hQ" }

/-- Witness for the amended C4: on a filesystem where every digest
succeeds, the loop starting from a selectable row terminates. -/
theorem calc_hash_terminates_witness :
    ∃ n, modified (hash_loop cexFsOk n [cexRowQ]) = [] :=
  calc_hash_terminates cexFsOk (fun _ _ => rfl) [cexRowQ]
